import Mathlib

/-!
Verification development for the coll-fns document-database access layer
(join resolution engine + field projection algebra + join registry).

The JavaScript sources (src/fetch.js, fields.js, join.js, util.js) are
shallowly embedded below.  JavaScript's dynamically typed values are
modelled by the inductive type `JsVal`; JS objects are association lists
that keep insertion order, and property updates replace the value of an
existing key in place, exactly as JS object spread does.  The pluggable
storage protocol (an external collaborator per the specification) is
modelled as an in-memory MongoDB-like store; every `count`/`findList`
call is recorded in a trace so that query-count and short-circuit
properties are observable.  Functions that can recurse through the
storage protocol (`fetchList`) take an explicit fuel argument; `none`
means the fuel ran out.
-/

/-- A JavaScript runtime value.  `num` covers the (small integer) numbers
used by this library; `inf` is the JS value `Infinity` (a number);
`undefined` and `null` are distinguished exactly as in JS.  Objects keep
their keys in insertion order. -/
inductive JsVal where
  | num (n : Int)
  | inf
  | str (s : String)
  | bool (b : Bool)
  | undefined
  | null
  | arr (xs : List JsVal)
  | obj (fs : List (String × JsVal))
deriving Repr

/-- JS truthiness: `false`, `0`, `""`, `null`, `undefined` are falsy;
`Infinity`, every other number/string, and all arrays/objects are truthy. -/
def truthy : JsVal → Bool
  | .num n => n != 0
  | .inf => true
  | .str s => s != ""
  | .bool b => b
  | .undefined => false
  | .null => false
  | .arr _ => true
  | .obj _ => true

/-- `isObj` from util.js: a plain object (arrays and null excluded). -/
def isObjV : JsVal → Bool
  | .obj _ => true
  | _ => false

/-- `isArr` from util.js. -/
def isArrV : JsVal → Bool
  | .arr _ => true
  | _ => false

/-- `typeOf` from util.js (the `Object.prototype.toString` tag,
lowercased): note `Infinity` is a number. -/
def typeOfV : JsVal → String
  | .num _ => "number"
  | .inf => "number"
  | .str _ => "string"
  | .bool _ => "boolean"
  | .undefined => "undefined"
  | .null => "null"
  | .arr _ => "array"
  | .obj _ => "object"

/-- The entry list of a JS object; every other value has no own
enumerable entries that this development relies on (the index entries of
strings and arrays are never reached by the embedded code paths). -/
def jsEntries : JsVal → List (String × JsVal)
  | .obj fs => fs
  | _ => []

/-- Property read `v[k]` (with JS's `undefined` for a missing key, and
for reads through a non-object, matching the optional chaining uses in
the source). -/
def getProp (v : JsVal) (k : String) : JsVal :=
  match (jsEntries v).find? (fun p => p.1 == k) with
  | some p => p.2
  | none => .undefined

/-- `fs` updated at key `k`: JS object spread `{...fs, [k]: v}` keeps the
original insertion position of an existing key and appends a new key. -/
def objSetEntries (fs : List (String × JsVal)) (k : String) (v : JsVal) :
    List (String × JsVal) :=
  if fs.any (fun p => p.1 == k) then
    fs.map (fun p => if p.1 == k then (k, v) else p)
  else fs ++ [(k, v)]

/-- `{...o, [k]: v}` on a JS object value. -/
def objSet (o : JsVal) (k : String) (v : JsVal) : JsVal :=
  .obj (objSetEntries (jsEntries o) k v)

/-- `{...a, ...b}`: object spread (spreading a non-object contributes no
entries, as for numbers/booleans/undefined in JS). -/
def objSpread (a b : JsVal) : JsVal :=
  .obj ((jsEntries b).foldl (fun acc p => objSetEntries acc p.1 p.2) (jsEntries a))

/-- Rest destructuring `const { [k]: _, ...rest } = o`. -/
def objDelete (o : JsVal) (k : String) : JsVal :=
  .obj ((jsEntries o).filter (fun p => !(p.1 == k)))

/-- `Object.keys` (insertion order). -/
def objKeys (o : JsVal) : List String :=
  (jsEntries o).map (·.1)

/-- Whether a JS object has key `k`. -/
def objHasKey (o : JsVal) (k : String) : Bool :=
  (jsEntries o).any (fun p => p.1 == k)

/- Structural equality on values; on the primitive values that this
library compares (ids, linking values) it coincides with JS `===`. -/
mutual
def jsBeq : JsVal → JsVal → Bool
  | .num a, .num b => a == b
  | .inf, .inf => true
  | .str a, .str b => a == b
  | .bool a, .bool b => a == b
  | .undefined, .undefined => true
  | .null, .null => true
  | .arr a, .arr b => jsBeqL a b
  | .obj a, .obj b => jsBeqE a b
  | _, _ => false
def jsBeqL : List JsVal → List JsVal → Bool
  | [], [] => true
  | x :: xs, y :: ys => jsBeq x y && jsBeqL xs ys
  | _, _ => false
def jsBeqE : List (String × JsVal) → List (String × JsVal) → Bool
  | [], [] => true
  | p :: ps, q :: qs => p.1 == q.1 && jsBeq p.2 q.2 && jsBeqE ps qs
  | _, _ => false
end

/-- JS property-key coercion `String(v)` for the values used as index
keys (array elements are coerced individually before indexing, so the
array case below is never consulted with nested containers here). -/
def jsKeyString : JsVal → String
  | .num n => toString n
  | .inf => "Infinity"
  | .str s => s
  | .bool b => if b then "true" else "false"
  | .undefined => "undefined"
  | .null => "null"
  | .arr _ => ""
  | .obj _ => "[object Object]"

/-- The comparison `joinFields[_key] > 1` from fetch.js, under JS numeric
coercion for the value shapes that occur as requested join depths
(numbers, `Infinity`, booleans; every other shape compares false there,
matching NaN comparisons for undefined/objects). -/
def jsGt1 : JsVal → Bool
  | .num n => n > 1
  | .inf => true
  | _ => false

/-- A linking property in an array relation: either a plain field name
(scalar-valued) or the single-element wrapper `["name"]` marking an
array-valued linking field. -/
inductive PropRef where
  | plain (s : String)
  | wrapped (s : String)
deriving Repr

/-- The property name of a linking side.  A computed object key built
from the wrapper (`{[on[0]]: 1}` in the source) coerces the
single-element array to the same string, so both forms share this. -/
def propName : PropRef → String
  | .plain s => s
  | .wrapped s => s

/-- The `on` relation of a registered join, as the tagged union that the
engine's `typeOf(join.on)` dispatch distinguishes at fetch time:
array/equality, object/static selector, or function/dynamic selector. -/
inductive RelOn where
  | arrRel (fromProp toProp : PropRef) (toSelector : JsVal)
  | objRel (selector : JsVal)
  | fnRel (f : JsVal → JsVal)

/-- A registered join definition (join.js): `Coll` is the target
collection handle (modelled by its name), `on` the relation, `single`
whether one document or a list is attached, `postFetch` an optional
transformation of the joined value, `fields` the projection declared on
the join, `limit` an optional cap (non-single joins only). -/
structure JoinDef where
  coll : String
  /-- the source property is named `on` (a reserved word in Lean) -/
  relOn : RelOn
  single : Bool := false
  postFetch : Option (JsVal → JsVal → JsVal) := none
  fields : JsVal := .undefined
  limit : Option Int := none

def isArrRel : RelOn → Bool
  | .arrRel _ _ _ => true
  | _ => false

def isObjRel : RelOn → Bool
  | .objRel _ => true
  | _ => false

def isFnRel : RelOn → Bool
  | .fnRel _ => true
  | _ => false

/-- Lookup of a named join in a collection's registered join map. -/
def lookupJoin (joins : List (String × JoinDef)) (k : String) : Option JoinDef :=
  (joins.find? (fun p => p.1 == k)).map (·.2)

/-- Whether a key begins with the `$` operator marker (structural
replacement for `startsWith`, reducible in the kernel). -/
def startsWithDollar (k : String) : Bool :=
  match k.data with
  | c :: _ => c == '$'
  | [] => false

/-- Split a key on the `.` separator (structural replacement for
`splitOn "."`, reducible in the kernel; agrees with it for the
single-character separator). -/
def splitDotsAux : List Char → List Char → List String
  | [], acc => [String.mk acc.reverse]
  | c :: rest, acc =>
    if c == '.' then String.mk acc.reverse :: splitDotsAux rest []
    else splitDotsAux rest (c :: acc)

def splitDots (s : String) : List String :=
  splitDotsAux s.data []

/- fields.js `flattenFields`: converts a nested field-selection object
into a flat dot-notation projection.  A level containing a key starting
with `$` is preserved verbatim; a dot-notation key whose root segment is
already selected as a truthy non-object leaf is dropped; non-object leaf
values are coerced to booleans.  The JS reduce starts from `undefined`
and each kept entry spreads the accumulator into a fresh object, so the
result is `undefined` only when no entry was kept.  (A truthy non-object
spec has no plain keys for the shapes that reach this function; the
string/array index-key corner of `Object.keys` is not modelled.) -/
mutual
def flattenFields (fields : JsVal) (root : Option String := none) : JsVal :=
  if !truthy fields then fields
  else
    match fields with
    | .obj fs =>
      if fs.any (fun p => startsWithDollar p.1) then
        match root with
        | some r => .obj [(r, .obj fs)]
        | none => .obj fs
      else flattenEntries (.obj fs) fs root .undefined
    | _ => .undefined
def flattenEntries (orig : JsVal) (fs : List (String × JsVal))
    (root : Option String) (acc : JsVal) : JsVal :=
  match fs with
  | [] => acc
  | (k, v) :: rest =>
    let dropped :=
      match splitDots k with
      | sub :: _ :: _ =>
        let subSel := getProp orig sub
        truthy subSel && !isObjV subSel
      | _ => false
    if dropped then flattenEntries orig rest root acc
    else
      let dotKey := match root with
        | some r => r ++ "." ++ k
        | none => k
      if !isObjV v then
        flattenEntries orig rest root
          (.obj (objSetEntries (jsEntries acc) dotKey (.bool (truthy v))))
      else
        flattenEntries orig rest root (objSpread acc (flattenFields v (some dotKey)))
end

/-- fields.js `normalizeFields`: a non-object spec normalizes to
`undefined` ("all fields") when truthy and to `{}` ("no fields") when
falsy; an object spec passes through, or is flattened to dot notation
when `flatten` is requested. -/
def normalizeFields (fields : JsVal) (flatten : Bool := false) : JsVal :=
  if !isObjV fields then (if truthy fields then .undefined else .obj [])
  else if !flatten then fields
  else flattenFields fields

/-- Model of the duplicated fields.js variant (src/unnamed/part_011
lines 504-508) whose flatten branch reads `flattenFields(fieldsss)`:
the identifier `fieldsss` is not defined anywhere, so reaching that
branch throws a `ReferenceError` at runtime, modelled as `.error`. -/
def normalizeFieldsTypo (fields : JsVal) (flatten : Bool := false) :
    Except String JsVal :=
  if !isObjV fields then .ok (if truthy fields then .undefined else .obj [])
  else if !flatten then .ok fields
  else .error "ReferenceError: fieldsss is not defined"

/-- fields.js `allFields`: `undefined` means all fields; any other falsy
value does not; objects do not; every remaining truthy value does. -/
def allFields : JsVal → Bool
  | .undefined => true
  | .obj _ => false
  | v => truthy v

/-- fields.js `removeFalsyFields`: keep only truthy-valued entries of an
object (a non-object becomes `{}`). -/
def removeFalsyFields (fields : JsVal) : JsVal :=
  if !isObjV fields then .obj []
  else .obj ((jsEntries fields).filter (fun p => truthy p.2))

/- fields.js `deepMergeFields`: right-biased deep merge where both sides
recurse only when both values at a key are plain objects.  The source
reads the evolving output (`out[key]`) while folding over `b`'s entries,
which the entry fold below reproduces.  It is only ever called on the
(object) results of `removeFalsyFields`; for other operands the
`b` side wins, matching the spread/override behavior. -/
mutual
def deepMergeFields : JsVal → JsVal → JsVal
  | .obj as, .obj bs => .obj (deepMergeEntries as bs)
  | _, b => b
def deepMergeEntries (as : List (String × JsVal)) :
    List (String × JsVal) → List (String × JsVal)
  | [] => as
  | (k, vB) :: rest =>
    deepMergeEntries
      (objSetEntries as k
        (if isObjV (getProp (.obj as) k) && isObjV vB then
          deepMergeFields (getProp (.obj as) k) vB
        else vB))
      rest
end

/-- fields.js `combineFields`: "all fields" absorbs; two falsy specs give
"no fields"; otherwise deep merge of the falsy-cleaned operands. -/
def combineFields (a b : JsVal) : JsVal :=
  if allFields a || allFields b then .undefined
  else if !truthy a && !truthy b then .obj []
  else deepMergeFields (removeFalsyFields a) (removeFalsyFields b)

/-- fields.js `decrementRecursiveField`: decrement by one the numeric
depth stored for a join key (under the configured join prefix when one
is set); `Infinity` and non-numeric values leave the spec unchanged. -/
def decrementRecursiveField (pfx : Option String) (key : String)
    (fields : JsVal) : JsVal :=
  if !isObjV fields then fields
  else
    let prev := match pfx with
      | some p => getProp (getProp fields p) key
      | none => getProp fields key
    match prev with
    | .num n =>
      match pfx with
      | none => objSet fields key (.num (n - 1))
      | some p => objSet fields p (objSet (getProp fields p) key (.num (n - 1)))
    | _ => fields

/- fields.js `isolateJoinFields`: group join fields under the reserved
"+" key.  With a configured prefix, only the entries under that prefix
that name a registered join are kept (the JS `filter` helper would throw
a TypeError on a truthy non-object prefix value; that unreachable corner
is modelled by passing the value through).  Without a prefix, any root
key naming a registered join is moved under "+" (created in place at the
position of the first join key, as JS object spread does). -/
def isolateJoinFields (pfx : Option String) (fields : JsVal)
    (joins : List (String × JoinDef)) : JsVal :=
  let joinKeys := joins.map (·.1)
  match pfx with
  | some p =>
    let jf := getProp fields p
    let own := objDelete fields p
    if !truthy jf then objSpread (.obj [("+", .undefined)]) own
    else
      let existing := match jf with
        | .obj fs => JsVal.obj (fs.filter (fun q => joinKeys.contains q.1))
        | v => v
      objSpread (.obj [("+", existing)]) own
  | none =>
    (jsEntries fields).foldl
      (fun acc p =>
        if !joinKeys.contains p.1 then objSet acc p.1 p.2
        else
          let prev := if truthy (getProp acc "+") then getProp acc "+" else .obj []
          objSet acc "+" (objSet prev p.1 p.2))
      (.obj [])

/-- fields.js `dispatchFields`: split a spec into own fields (first
component, flattened to dot notation) and join fields (second component,
`none` when absent).  When join fields are active and the own spec is
not "all fields", the own spec is augmented with each active join's
linking property (`on[0]` for array relations) and declared `fields`. -/
def dispatchFields (pfx : Option String) (fields : JsVal)
    (joins : List (String × JoinDef)) : JsVal × Option JsVal :=
  if !isObjV fields then (normalizeFields fields, none)
  else
    let iso := isolateJoinFields pfx fields joins
    let jf := getProp iso "+"
    let own := objDelete iso "+"
    if !truthy jf then (normalizeFields own true, none)
    else if (jsEntries own).isEmpty then (normalizeFields own true, some jf)
    else
      let augmented := (objKeys jf).foldl
        (fun acc jk =>
          match lookupJoin joins jk with
          | none => acc
          | some jd =>
            let onFields : Option JsVal := match jd.relOn with
              | .arrRel fp _ _ => some (.obj [(propName fp, .num 1)])
              | _ => none
            if onFields.isNone && !truthy jd.fields then acc
            else
              objSpread (objSpread acc (onFields.getD .undefined)) jd.fields)
        own
      (normalizeFields augmented true, some jf)

/-- A recorded storage-protocol call: `countC` for `count`, `findC` for
`findList` together with the selector, the (own) fields projection, the
flag that `transform: null` was passed (fetch.js always suppresses the
transform on protocol calls), and the limit. -/
inductive PCall where
  | countC (coll : String) (sel : JsVal)
  | findC (coll : String) (sel : JsVal) (fields : JsVal)
      (transformNull : Bool) (limit : Option Int)

/-- The protocol call log. -/
abbrev Trace := List PCall

/-- The `transform` option value: absent/`undefined` (the collection
transform applies by default), explicitly falsy (`null`, disabling it),
or a function. -/
inductive TransformOpt where
  | undefT
  | nullT
  | fnT (f : JsVal → JsVal)

/-- The fetch options modelled here: `fields`, `transform` and `limit`
(the only options the embedded control flow inspects; `sort`/`skip` are
forwarded opaquely by the source and left out). -/
structure FetchOpts where
  fields : JsVal := .undefined
  tOpt : TransformOpt := .undefT
  limit : Option Int := none

/-- The process-wide configuration a fetch call reads: the registered
joins per collection, the join prefix, the per-collection transform of
the storage protocol, and the backing store contents (never written
during a fetch). -/
structure Config where
  joins : String → List (String × JoinDef)
  pfx : Option String := none
  getTransform : String → Option (JsVal → JsVal) := fun _ => none
  db : String → List JsVal

/-- Membership of a value in a list under JS equality. -/
def memJs (v : JsVal) (l : List JsVal) : Bool :=
  l.any (fun x => jsBeq x v)

/- Modelled from the spec: the MongoDB-like matching semantics of the
external storage protocol's `findList`/`count` (spec section 6), for the
selector shapes the engine builds: field equality (matching an
array-valued field when it contains the value, as MongoDB does),
`{$in: [...]}` and `{$elemMatch: {$in: [...]}}`. -/
def matchCondition (doc : JsVal) (k : String) (cond : JsVal) : Bool :=
  let dv := getProp doc k
  match cond with
  | .obj cs =>
    match cs.find? (fun p => p.1 == "$in") with
    | some p =>
      let l := match p.2 with | .arr xs => xs | _ => []
      memJs dv l ||
        (match dv with | .arr xs => xs.any (fun x => memJs x l) | _ => false)
    | none =>
      match cs.find? (fun p => p.1 == "$elemMatch") with
      | some p =>
        (match p.2 with
         | .obj es =>
           (match es.find? (fun q => q.1 == "$in") with
            | some q =>
              let l := match q.2 with | .arr xs => xs | _ => []
              (match dv with
               | .arr xs => xs.any (fun x => memJs x l)
               | _ => false)
            | none => false)
         | _ => false)
      | none => jsBeq dv cond
  | v =>
    jsBeq dv v || (match dv with | .arr xs => xs.any (fun x => jsBeq x v) | _ => false)

/-- Modelled from the spec: selector matching (conjunction of the
per-key conditions; the empty selector matches every document). -/
def matchesSel (sel doc : JsVal) : Bool :=
  match sel with
  | .obj cs => cs.all (fun p => matchCondition doc p.1 p.2)
  | _ => true

/-- Modelled from the spec: the store applies a flat projection.
`undefined` keeps the whole document; a projection with at least one
truthy value keeps exactly the truthy keys plus `_id`; an all-falsy
projection drops the named keys (the empty projection keeps all). -/
def project (flds doc : JsVal) : JsVal :=
  match flds with
  | .obj fs =>
    if fs.any (fun p => truthy p.2) then
      .obj ((jsEntries doc).filter
        (fun p => p.1 == "_id" || truthy (getProp flds p.1)))
    else
      .obj ((jsEntries doc).filter (fun p => !objHasKey flds p.1))
  | _ => doc

/-- Modelled from the spec: a `limit` option caps the result list. -/
def applyLimit (limit : Option Int) (l : List JsVal) : List JsVal :=
  match limit with
  | some n => l.take n.toNat
  | none => l

/-- The number of store documents matching a selector (what the
protocol's `count` returns). -/
def countValue (cfg : Config) (coll : String) (sel : JsVal) : Int :=
  ((cfg.db coll).filter (fun d => matchesSel sel d)).length

/-- Protocol `count`, recording its call. -/
def countP (cfg : Config) (coll : String) (sel : JsVal) (tr : Trace) :
    Int × Trace :=
  (countValue cfg coll sel, tr ++ [.countC coll sel])

/-- Protocol `findList`, recording its call (fetch.js always passes
`transform: null`, recorded by the `true` flag). -/
def findListP (cfg : Config) (coll : String) (sel fields : JsVal)
    (limit : Option Int) (tr : Trace) : List JsVal × Trace :=
  (applyLimit limit (((cfg.db coll).filter (fun d => matchesSel sel d)).map
      (fun d => project fields d)),
   tr ++ [.findC coll sel fields true limit])

/-- util.js `getPropValue` on a pre-split dot path: descends through
objects; through an array it maps over the elements and flattens
array-valued sub-results; a missing/primitive intermediate stops. -/
def getPropValue (path : List String) (doc : JsVal) : JsVal :=
  match path with
  | [] => doc
  | [k] => getProp doc k
  | k :: rest =>
    let rv := getProp doc k
    if isObjV rv then getPropValue rest rv
    else
      match rv with
      | .arr xs =>
        .arr (xs.flatMap (fun sub =>
          match getPropValue rest sub with
          | .arr ys => ys
          | v => [v]))
      | _ => rv

/-- `Array.prototype.flatMap` element contribution: an array is spread,
anything else is kept as a single element. -/
def asSpread : JsVal → List JsVal
  | .arr xs => xs
  | v => [v]

/-- `x || []` followed by array iteration (`doc[prop] || []` in the
source); a falsy value gives the empty list.  A truthy non-array would
make the JS `includes`/`some` calls throw and never occurs here. -/
def asArrD : JsVal → List JsVal
  | .arr xs => xs
  | _ => []

/-- `list[0]`: first element or `undefined`. -/
def headOrUndef : List JsVal → JsVal
  | [] => .undefined
  | x :: _ => x

/-- Apply a join's `postFetch` when it is a function (source:
`isFunc(postFetch) ? postFetch(raw, doc) : raw`). -/
def postApply (pf : Option (JsVal → JsVal → JsVal)) (raw doc : JsVal) : JsVal :=
  match pf with
  | some f => f raw doc
  | none => raw

/-- util.js `uniqueBy("_id", list)`: keep the first document for each
`_id` value (strict equality on the primitive ids used here). -/
def uniqueById (l : List JsVal) : List JsVal :=
  l.foldl
    (fun acc x =>
      if acc.any (fun p => jsBeq (getProp p "_id") (getProp x "_id")) then acc
      else acc ++ [x])
    []

/-- Append a document under a string index key (the JS object used as a
multi-map coerces keys to strings). -/
def idxAdd (idx : List (String × List JsVal)) (k : String) (d : JsVal) :
    List (String × List JsVal) :=
  if idx.any (fun p => p.1 == k) then
    idx.map (fun p => if p.1 == k then (p.1, p.2 ++ [d]) else p)
  else idx ++ [(k, [d])]

/-- Lookup in the multi-map (`indexedByToProp[v] || []`). -/
def idxLookup (idx : List (String × List JsVal)) (k : String) : List JsVal :=
  match idx.find? (fun p => p.1 == k) with
  | some p => p.2
  | none => []

/-- fetch.js lines 159-174: index the joined documents by their `toProp`
value (each element separately when that value is an array). -/
def buildIndex (toName : String) (docs : List JsVal) :
    List (String × List JsVal) :=
  docs.foldl
    (fun acc jdoc =>
      match getPropValue (splitDots toName) jdoc with
      | .arr vs => vs.foldl (fun a v => idxAdd a (jsKeyString v) jdoc) acc
      | v => idxAdd acc (jsKeyString v) jdoc)
    []

/-- fetch.js lines 103-115: the child-side selector of an array join —
the collected linking values (`$in`), wrapped in `$elemMatch` when the
`to` side is array-valued, merged over the join's extra selector. -/
def arrSubSelector (fromP toP : PropRef) (toSel : JsVal)
    (docs : List JsVal) : JsVal :=
  let propList := match fromP with
    | .wrapped s => docs.flatMap (fun d => asSpread (getProp d s))
    | .plain s => docs.map (fun d => getProp d s)
  match toP with
  | .wrapped s =>
    objSet toSel s (.obj [("$elemMatch", .obj [("$in", .arr propList)])])
  | .plain s => objSet toSel s (.obj [("$in", .arr propList)])

/-- fetch.js lines 176-205: distribute the fetched child documents onto
the parent documents (filtering by intersection when the `to` side is
array-valued, otherwise through the index; de-duplicating by `_id` when
the `from` side is array-valued), pick first-or-all per `single`, apply
`postFetch`, and attach under the join key. -/
def arrAttachAll (key : String) (jd : JoinDef) (fromP toP : PropRef)
    (allJoined : List JsVal) (docs : List JsVal) : List JsVal :=
  let idx := buildIndex (propName toP) allJoined
  docs.map (fun d =>
    let joined :=
      match toP with
      | .wrapped ts =>
        allJoined.filter (fun jdoc =>
          let toList := asArrD (getProp jdoc ts)
          match fromP with
          | .plain fs2 => toList.any (fun x => jsBeq x (getProp d fs2))
          | .wrapped fs2 =>
            (asArrD (getProp d fs2)).any (fun el => toList.any (fun x => jsBeq x el)))
      | .plain _ =>
        match fromP with
        | .wrapped fs2 =>
          uniqueById ((asArrD (getProp d fs2)).flatMap
            (fun fv => idxLookup idx (jsKeyString fv)))
        | .plain fs2 => idxLookup idx (jsKeyString (getProp d fs2))
    let raw := if jd.single then headOrUndef joined else .arr joined
    objSet d key (postApply jd.postFetch raw d))

/-- The type of a (fuel-instantiated) fetch entry point, as passed to
the join helpers for their nested fetches. -/
abbrev FetchFn := String → JsVal → FetchOpts → Trace → Option (List JsVal × Trace)

/-- The nested-fetch options of an array join (fetch.js lines 128-151):
the decremented-or-declared fields spec (with `toProp` injected when the
sub-spec is concrete, misses own fields and `toProp` is not `_id`),
`limit` cleared, and the resolved transform forwarded only when
recursing. -/
def arrNestedOpts (pfx : Option String)
    (joins : List (String × JoinDef)) (toP : PropRef)
    (subJF : JsVal) (t : TransformOpt) : FetchOpts :=
  let own := (dispatchFields pfx subJF joins).1
  let allOwnIncluded := match own with
    | .undefined => true
    | .obj fs => fs.isEmpty
    | _ => false
  let toPropNotId := match toP with
    | .plain s => s != "_id"
    | .wrapped _ => true
  let subFields :=
    if isObjV subJF && !allOwnIncluded && toPropNotId then
      objSet subJF (propName toP) (.num 1)
    else subJF
  { fields := normalizeFields subFields, tOpt := t, limit := none }

/-- One array join of fetch.js lines 91-211, over the current document
list.  A self-join with requested depth above one first issues the count
probe; a zero count stops the recursion (no nested fetch); otherwise the
nested fetch runs with the depth-decremented field spec. -/
def arrJoinStep (cfg : Config) (rec : FetchFn) (coll : String)
    (fullFields joinFields : JsVal) (rT : TransformOpt) (key : String)
    (jd : JoinDef) (docs : List JsVal) (tr : Trace) :
    Option (List JsVal × Trace) :=
  match jd.relOn with
  | .arrRel fromP toP toSel =>
    let subSel := arrSubSelector fromP toP toSel docs
    if jd.coll == coll && jsGt1 (getProp joinFields key) then
      let cnt := countValue cfg coll subSel
      let tr1 := tr ++ [PCall.countC coll subSel]
      if cnt == 0 then
        some (arrAttachAll key jd fromP toP [] docs, tr1)
      else
        let subJF := decrementRecursiveField cfg.pfx key fullFields
        match rec jd.coll subSel
            (arrNestedOpts cfg.pfx (cfg.joins jd.coll) toP subJF rT) tr1 with
        | none => none
        | some (allJoined, tr2) =>
          some (arrAttachAll key jd fromP toP allJoined docs, tr2)
    else
      let subJF := getProp joinFields key
      match rec jd.coll subSel
          (arrNestedOpts cfg.pfx (cfg.joins jd.coll) toP subJF .undefT) tr with
      | none => none
      | some (allJoined, tr2) =>
        some (arrAttachAll key jd fromP toP allJoined docs, tr2)
  | _ => some (docs, tr)

/-- The sequential reduce over the array joins (fetch.js line 91). -/
def arrJoinFold (cfg : Config) (rec : FetchFn) (coll : String)
    (fullFields joinFields : JsVal) (rT : TransformOpt) :
    List (String × JoinDef) → List JsVal → Trace → Option (List JsVal × Trace)
  | [], docs, tr => some (docs, tr)
  | (k, jd) :: rest, docs, tr =>
    match arrJoinStep cfg rec coll fullFields joinFields rT k jd docs tr with
    | none => none
    | some (docs2, tr2) => arrJoinFold cfg rec coll fullFields joinFields rT rest docs2 tr2

/-- The per-doc enhancer a join fetcher returns (fetch.js lines 352-359). -/
def attachFn (key : String) (jd : JoinDef) (joined : List JsVal) :
    JsVal → JsVal :=
  fun d =>
    objSet d key (postApply jd.postFetch
      (if jd.single then headOrUndef joined else .arr joined) d)

/-- Wrap the nested-fetch outcome into the enhancer function. -/
def fetcherWrap (key : String) (jd : JoinDef)
    (o : Option (List JsVal × Trace)) : Option ((JsVal → JsVal) × Trace) :=
  match o with
  | none => none
  | some (joined, tr) => some (attachFn key jd joined, tr)

/-- The nested-fetch options built by `createJoinFetcher` (fetch.js
lines 341-346): normalized fields, and `limit` of 1 for `single` joins,
otherwise the join's truthy limit.  The `transform` option is absent
(it was removed from `restOptions`), so the nested fetch falls back to
the child collection's own transform. -/
def fetcherSubOpts (jd : JoinDef) (jf : JsVal) : FetchOpts :=
  { fields := normalizeFields jf,
    tOpt := .undefT,
    limit :=
      if jd.single then some 1
      else match jd.limit with
        | some n => if n == 0 then none else some n
        | none => none }

/-- fetch.js `createJoinFetcher` (lines 311-364), used for object and
function joins: for a self-join (target collection equal to the parent
collection) the count probe is always issued first, and the nested fetch
is skipped when the requested join fields value is falsy or the probe
counted zero; otherwise the nested fetch runs (with the
depth-decremented parent field spec when self-joined). -/
def createJoinFetcher (cfg : Config) (rec : FetchFn) (coll : String)
    (key : String) (jd : JoinDef) (fieldsArg parentFields : JsVal)
    (subSel : JsVal) (tr : Trace) : Option ((JsVal → JsVal) × Trace) :=
  if jd.coll == coll then
    let cnt := countValue cfg coll subSel
    let tr1 := tr ++ [PCall.countC coll subSel]
    if !truthy fieldsArg || cnt == 0 then
      some (attachFn key jd [], tr1)
    else
      fetcherWrap key jd
        (rec jd.coll subSel
          (fetcherSubOpts jd (decrementRecursiveField cfg.pfx key parentFields)) tr1)
  else
    fetcherWrap key jd (rec jd.coll subSel (fetcherSubOpts jd fieldsArg) tr)

/-- Build the object-join enhancers in order (fetch.js lines 219-230):
each static selector is fetched once, before any document is enhanced. -/
def objFetchersFold (cfg : Config) (rec : FetchFn) (coll : String)
    (joinFields parentFields : JsVal) :
    List (String × JoinDef) → Trace → Option (List (JsVal → JsVal) × Trace)
  | [], tr => some ([], tr)
  | (k, jd) :: rest, tr =>
    let sel := match jd.relOn with
      | .objRel s => s
      | _ => .undefined
    match createJoinFetcher cfg rec coll k jd (getProp joinFields k)
        parentFields sel tr with
    | none => none
    | some (g, tr2) =>
      match objFetchersFold cfg rec coll joinFields parentFields rest tr2 with
      | none => none
      | some (gs, tr3) => some (g :: gs, tr3)

/-- The function joins of one document (fetch.js lines 243-261): each
relation function receives the document as it stood after the array
joins (`on(doc)` is called on the outer `doc`), and the resulting
selector feeds the shared join fetcher. -/
def fnJoinsFold (cfg : Config) (rec : FetchFn) (coll : String)
    (joinFields parentFields origDoc : JsVal) :
    List (String × JoinDef) → JsVal → Trace → Option (JsVal × Trace)
  | [], d, tr => some (d, tr)
  | (k, jd) :: rest, d, tr =>
    let sel := match jd.relOn with
      | .fnRel f => f origDoc
      | .objRel s => s
      | .arrRel _ _ _ => .undefined
    match createJoinFetcher cfg rec coll k jd (getProp joinFields k)
        parentFields sel tr with
    | none => none
    | some (g, tr2) => fnJoinsFold cfg rec coll joinFields parentFields origDoc rest (g d) tr2

/-- Per-document application (fetch.js lines 236-266): object-join
enhancers first, then the function joins, then the resolved transform —
the transform therefore sees the fully joined document. -/
def perDocJoins (cfg : Config) (rec : FetchFn) (coll : String)
    (joinFields parentFields : JsVal) (enhs : List (JsVal → JsVal))
    (fnJs : List (String × JoinDef)) (enhance : JsVal → JsVal) :
    List JsVal → Trace → Option (List JsVal × Trace)
  | [], tr => some ([], tr)
  | d :: ds, tr =>
    let d1 := enhs.foldl (fun x g => g x) d
    match fnJoinsFold cfg rec coll joinFields parentFields d fnJs d1 tr with
    | none => none
    | some (d2, tr2) =>
      match perDocJoins cfg rec coll joinFields parentFields enhs fnJs enhance ds tr2 with
      | none => none
      | some (rest, tr3) => some (enhance d2 :: rest, tr3)

/-- One unfolding of fetch.js `fetchList`, with `rec` the entry point
used for nested join fetches.  The base query always suppresses the
transform; when no join field is active (or the fields option is a
truthy non-object) the transform is applied directly to the base result;
otherwise the three join variants run in order (array, object, function)
and the transform is applied to each fully joined document. -/
def fetchListBody (cfg : Config) (rec : FetchFn) (coll : String)
    (selector : JsVal) (o : FetchOpts) (tr : Trace) :
    Option (List JsVal × Trace) :=
  let joins := cfg.joins coll
  let rT : TransformOpt := match o.tOpt with
    | .undefT => match cfg.getTransform coll with
      | some f => .fnT f
      | none => .undefT
    | t => t
  let enhance : JsVal → JsVal := fun d => match rT with
    | .fnT f => f d
    | _ => d
  let disp := dispatchFields cfg.pfx o.fields joins
  let ownFields := disp.1
  let joinFields := match disp.2 with
    | some v => v
    | none => .obj []
  let usedJoinKeys := objKeys joinFields
  if usedJoinKeys.isEmpty || (truthy o.fields && !isObjV o.fields) then
    let (docs, tr1) := findListP cfg coll selector ownFields o.limit tr
    some (docs.map enhance, tr1)
  else
    let (docs, tr1) := findListP cfg coll selector ownFields o.limit tr
    let activeJoins := usedJoinKeys.filterMap
      (fun k => (lookupJoin joins k).map (fun jd => (k, jd)))
    let arrJoins := activeJoins.filter (fun p => isArrRel p.2.relOn)
    let objJoins := activeJoins.filter (fun p => isObjRel p.2.relOn)
    let fnJoins := activeJoins.filter (fun p => isFnRel p.2.relOn)
    match arrJoinFold cfg rec coll o.fields joinFields rT arrJoins docs tr1 with
    | none => none
    | some (docsA, tr2) =>
      match objFetchersFold cfg rec coll joinFields o.fields objJoins tr2 with
      | none => none
      | some (enhs, tr3) =>
        perDocJoins cfg rec coll joinFields o.fields enhs fnJoins enhance docsA tr3

/-- The fetch entry point, with fuel bounding the join recursion depth
(`none` only when the fuel runs out; every theorem below instantiates
sufficient fuel). -/
def fetchList (cfg : Config) : Nat → FetchFn
  | 0 => fun _ _ _ _ => none
  | n + 1 => fun coll sel o tr => fetchListBody cfg (fetchList cfg n) coll sel o tr

/-- The `on` value of a join definition as it arrives at registration
time, before any validation: either a runtime value or a function
(functions are not `JsVal`s, so they get their own tag, which is exactly
what `typeOf` distinguishes). -/
inductive RegOn where
  | val (v : JsVal)
  | fnOn

/-- `typeOf` of a registration-time `on` value. -/
def regTypeOf : RegOn → String
  | .fnOn => "function"
  | .val v => typeOfV v

/-- JS truthiness of a registration-time `on` value (functions are
truthy). -/
def regTruthyOn : RegOn → Bool
  | .fnOn => true
  | .val v => truthy v

def regIsFn : RegOn → Bool
  | .fnOn => true
  | .val _ => false

/-- The join-definition properties that registration-time validation
destructures (`{ Coll, on, fields }`); a missing property is
`undefined`. -/
structure RegEntry where
  coll : JsVal := .undefined
  regOn : RegOn := .val .undefined
  fields : JsVal := .undefined

/-- join.js `KNOWN_TYPES`. -/
def KNOWN_TYPES : List String := ["array", "function", "object"]

/-- The non-fatal warning for a function relation without declared
fields (join.js lines 46-50; the single quotes around names in the
original messages are omitted throughout). -/
def fnWarnMsg (k : String) : String :=
  "Join " ++ k ++
    " is defined with a function on, but no fields are explicitely specified. This could lead to failed joins if the keys necessary for the join are not specified at query time."

/-- Validation of one entry of the join map (join.js lines 29-51):
missing target collection and missing relation throw configuration
errors naming the join; an unrecognized relation type throws an error
naming the type; a function relation without fields yields a warning. -/
def validateEntry (k : String) (e : RegEntry) : Except String (Option String) :=
  if !truthy e.coll then
    .error ("Collection Coll for " ++ k ++ " join is required.")
  else if !regTruthyOn e.regOn then
    .error ("Join " ++ k ++ " has no on condition specified.")
  else
    let t := regTypeOf e.regOn
    if !KNOWN_TYPES.contains t then
      .error ("Join " ++ k ++ " has an unrecognized on condition type of " ++ t ++
        ". Should be one of array, function, object.")
    else if regIsFn e.regOn && !truthy e.fields then
      .ok (some (fnWarnMsg k))
    else .ok none

/-- join.js `join` (the registration entry point), validation portion:
every entry of the passed join map is validated synchronously, in order,
before the registry is updated; the first invalid entry throws, and the
collected warnings are non-fatal.  (The registry merge itself stores the
map and is not needed by the claims below.) -/
def joinRegistration : List (String × RegEntry) → Except String (List String)
  | [] => .ok []
  | (k, e) :: rest =>
    match validateEntry k e with
    | .error m => .error m
    | .ok w =>
      match joinRegistration rest with
      | .error m => .error m
      | .ok ws => .ok ((match w with | some m => [m] | none => []) ++ ws)

/-- Number of `findList` calls against a given collection in a trace. -/
def countFindCalls (coll : String) (tr : Trace) : Nat :=
  tr.countP (fun pc => match pc with
    | .findC c _ _ _ _ => c == coll
    | _ => false)

/-- Number of `count` calls in a trace. -/
def numCountCalls (tr : Trace) : Nat :=
  tr.countP (fun pc => match pc with
    | .countC _ _ => true
    | _ => false)

/-- No two entries share a key (true of every JS object level). -/
def noDupKeysE : List (String × JsVal) → Bool
  | [] => true
  | p :: rest => !(rest.any (fun q => q.1 == p.1)) && noDupKeysE rest

/- A value is well formed when every object level has pairwise distinct
keys — the invariant JS objects always satisfy. -/
mutual
def wfSpec : JsVal → Bool
  | .obj fs => noDupKeysE fs && wfEntries fs
  | .arr xs => wfList xs
  | _ => true
def wfEntries : List (String × JsVal) → Bool
  | [] => true
  | p :: rest => wfSpec p.2 && wfEntries rest
def wfList : List JsVal → Bool
  | [] => true
  | x :: rest => wfSpec x && wfList rest
end

/- No key anywhere in a spec starts with the `$` operator marker. -/
mutual
def noDollarDeep : JsVal → Bool
  | .obj fs => noDollarEntries fs
  | _ => true
def noDollarEntries : List (String × JsVal) → Bool
  | [] => true
  | (k, v) :: rest => !startsWithDollar k && noDollarDeep v && noDollarEntries rest
end

/- The set of selected field paths of a spec: the paths of its truthy
non-object leaves (sub-objects recurse).  Two specs selecting the same
paths request the same fields of the store under the library's
inclusion reading of a projection. -/
mutual
def truthyPaths : JsVal → List (List String)
  | .obj fs => truthyPathsE fs
  | _ => []
def truthyPathsE : List (String × JsVal) → List (List String)
  | [] => []
  | (k, v) :: rest =>
    (if isObjV v then (truthyPaths v).map (fun p => k :: p)
     else if truthy v then [[k]] else []) ++ truthyPathsE rest
end

/-- All values of (the top level of) an object are booleans; non-objects
hold no projection entries. -/
def entriesAllBool : JsVal → Bool
  | .obj fs => fs.all (fun p => match p.2 with | .bool _ => true | _ => false)
  | _ => true

theorem sizeOf_snd_lt_obj : ∀ (fs : List (String × JsVal)) (k : String)
    (v : JsVal), (k, v) ∈ fs → sizeOf v < sizeOf (JsVal.obj fs) := by
  intro fs
  induction fs with
  | nil => intro k v h; cases h
  | cons q rest ih =>
    intro k v h
    cases h with
    | head =>
      simp only [JsVal.obj.sizeOf_spec, List.cons.sizeOf_spec, Prod.mk.sizeOf_spec]
      omega
    | tail _ h =>
      have := ih _ _ h
      simp only [JsVal.obj.sizeOf_spec, List.cons.sizeOf_spec] at this ⊢
      omega

theorem nodup_key_unique : ∀ (as : List (String × JsVal)) (k : String)
    (v w : JsVal), noDupKeysE as = true → (k, v) ∈ as → (k, w) ∈ as → v = w := by
  intro as
  induction as with
  | nil => intro k v w _ h; cases h
  | cons q rest ih =>
    intro k v w hnd h1 h2
    simp only [noDupKeysE, Bool.and_eq_true, Bool.not_eq_true'] at hnd
    cases h1 with
    | head =>
      cases h2 with
      | head => rfl
      | tail _ h2 =>
        exfalso
        have : rest.any (fun r => r.1 == (k, v).1) = true :=
          List.any_eq_true.mpr ⟨(k, w), h2, by simp⟩
        rw [hnd.1] at this
        cases this
    | tail _ h1 =>
      cases h2 with
      | head =>
        exfalso
        have : rest.any (fun r => r.1 == (k, w).1) = true :=
          List.any_eq_true.mpr ⟨(k, v), h1, by simp⟩
        rw [hnd.1] at this
        cases this
      | tail _ h2 => exact ih _ _ _ hnd.2 h1 h2

theorem map_id_of_eq {α : Type} : ∀ (l : List α) (f : α → α),
    (∀ a ∈ l, f a = a) → l.map f = l := by
  intro l f
  induction l with
  | nil => intro _; rfl
  | cons x rest ih =>
    intro h
    simp only [List.map_cons]
    rw [h x (List.mem_cons_self x rest), ih (fun a ha => h a (List.mem_cons_of_mem x ha))]

theorem getProp_nodup {as : List (String × JsVal)} {k : String} {v : JsVal}
    (hnd : noDupKeysE as = true) (hm : (k, v) ∈ as) :
    getProp (.obj as) k = v := by
  induction as with
  | nil => cases hm
  | cons q rest ih =>
    simp only [noDupKeysE, Bool.and_eq_true, Bool.not_eq_true'] at hnd
    cases hm with
    | head => simp [getProp, jsEntries, List.find?]
    | tail _ hm =>
      have hq : (q.1 == k) = false := by
        by_contra hq
        simp only [Bool.not_eq_false, beq_iff_eq] at hq
        have : rest.any (fun r => r.1 == q.1) = true :=
          List.any_eq_true.mpr ⟨(k, v), hm, by simp [hq]⟩
        rw [hnd.1] at this
        cases this
      have := ih hnd.2 hm
      simp only [getProp, jsEntries, List.find?, hq] at this ⊢
      exact this

theorem objSetEntries_mem {as : List (String × JsVal)} {k : String}
    {v : JsVal} (hnd : noDupKeysE as = true) (hm : (k, v) ∈ as) :
    objSetEntries as k v = as := by
  have hany : as.any (fun p => p.1 == k) = true :=
    List.any_eq_true.mpr ⟨(k, v), hm, by simp⟩
  simp only [objSetEntries, hany, if_true]
  apply map_id_of_eq
  intro p hp
  by_cases hpk : (p.1 == k) = true
  · simp only [hpk, if_true]
    have hk : p.1 = k := by simpa using hpk
    have hp2 : p.2 = v := by
      apply nodup_key_unique as k p.2 v hnd _ hm
      have : p = (k, p.2) := by
        rw [← hk]
      rw [← this]
      exact hp
    rw [← hk, ← hp2]
  · simp [hpk]

theorem wfEntries_mem {fs : List (String × JsVal)} {p : String × JsVal}
    (h : wfEntries fs = true) (hp : p ∈ fs) : wfSpec p.2 = true := by
  induction fs with
  | nil => cases hp
  | cons q rest ih =>
    simp only [wfEntries, Bool.and_eq_true] at h
    cases hp with
    | head => exact h.1
    | tail _ hp => exact ih h.2 hp

theorem deepMerge_self : ∀ (n : Nat) (a : JsVal), sizeOf a ≤ n →
    wfSpec a = true → deepMergeFields a a = a := by
  intro n
  induction n with
  | zero =>
    intro a hs _
    exfalso
    have : 0 < sizeOf a := by
      cases a <;> simp_arith
    omega
  | succ n ih =>
    intro a hs hwf
    cases a with
    | obj as =>
      simp only [wfSpec, Bool.and_eq_true] at hwf
      simp only [deepMergeFields]
      congr 1
      have inner : ∀ bs, (∀ p ∈ bs, p ∈ as) → deepMergeEntries as bs = as := by
        intro bs
        induction bs with
        | nil => intro _; rfl
        | cons q rest ihb =>
          intro hsub
          obtain ⟨k, vB⟩ := q
          have hmem : (k, vB) ∈ as := hsub _ (List.mem_cons_self _ _)
          simp only [deepMergeEntries]
          rw [getProp_nodup hwf.1 hmem]
          have hmerged :
              (if isObjV vB && isObjV vB then deepMergeFields vB vB else vB) = vB := by
        
            by_cases hob : isObjV vB = true
            · have hsz : sizeOf vB ≤ n := by
                have := sizeOf_snd_lt_obj as k vB hmem
                simp only [JsVal.obj.sizeOf_spec] at this hs ⊢
                omega
              have hwfB : wfSpec vB = true := wfEntries_mem hwf.2 hmem
              simp [hob, ih vB hsz hwfB]
            · simp only [Bool.not_eq_true] at hob
              simp [hob]
          rw [hmerged, objSetEntries_mem hwf.1 hmem]
          exact ihb (fun p hp => hsub p (List.mem_cons_of_mem _ hp))
      exact inner as (fun p hp => hp)
    | num m => rfl
    | inf => rfl
    | str s => rfl
    | bool b => rfl
    | undefined => rfl
    | null => rfl
    | arr xs => rfl

theorem any_filter_imp {fs : List (String × JsVal)}
    {pr q : String × JsVal → Bool}
    (h : (fs.filter pr).any q = true) : fs.any q = true := by
  rcases List.any_eq_true.mp h with ⟨p, hp, hq⟩
  exact List.any_eq_true.mpr ⟨p, List.mem_of_mem_filter hp, hq⟩

theorem noDupKeysE_filter {fs : List (String × JsVal)}
    {pr : String × JsVal → Bool} (h : noDupKeysE fs = true) :
    noDupKeysE (fs.filter pr) = true := by
  induction fs with
  | nil => simp [noDupKeysE]
  | cons q rest ih =>
    simp only [noDupKeysE, Bool.and_eq_true, Bool.not_eq_true'] at h
    by_cases hq : pr q = true
    · simp only [List.filter_cons, hq, if_true, noDupKeysE, Bool.and_eq_true,
        Bool.not_eq_true']
      constructor
      · by_contra hc
        simp only [Bool.not_eq_false] at hc
        have := any_filter_imp hc
        rw [h.1] at this
        cases this
      · exact ih h.2
    · simp only [Bool.not_eq_true] at hq
      simp only [List.filter_cons, hq]
      exact ih h.2

theorem wfEntries_filter {fs : List (String × JsVal)}
    {pr : String × JsVal → Bool} (h : wfEntries fs = true) :
    wfEntries (fs.filter pr) = true := by
  induction fs with
  | nil => simp [wfEntries]
  | cons q rest ih =>
    simp only [wfEntries, Bool.and_eq_true] at h
    by_cases hq : pr q = true
    · simp only [List.filter_cons, hq, if_true, wfEntries, Bool.and_eq_true]
      exact ⟨h.1, ih h.2⟩
    · simp only [Bool.not_eq_true] at hq
      simp only [List.filter_cons, hq]
      exact ih h.2

theorem truthyPathsE_filter_truthy : ∀ (fs : List (String × JsVal)),
    truthyPathsE (fs.filter (fun p => truthy p.2)) = truthyPathsE fs := by
  intro fs
  induction fs with
  | nil => rfl
  | cons q rest ih =>
    obtain ⟨k, v⟩ := q
    by_cases hv : truthy v = true
    · simp only [List.filter_cons, hv, if_true, truthyPathsE, ih]
    · simp only [Bool.not_eq_true] at hv
      have hvo : isObjV v = false := by
        cases v <;> first | rfl | (simp [truthy] at hv)
      simp only [List.filter_cons, hv, truthyPathsE, hvo, Bool.false_eq_true,
        if_false, ih]
      simp [hv]

/-- C6: projection idempotence.  For every concrete plain-object field
spec `s` (well formed in the sense that no object level repeats a key,
as is true of every JS object), `combineFields s s` selects exactly the
same set of field paths as `normalizeFields s`: combining a spec with
itself is equivalent to the normalized spec, including when `s` contains
falsy leaf values (those select nothing, and `combineFields` drops them
while leaving every selected path intact). -/
theorem c6_combine_self_idempotent (s : JsVal) (hobj : isObjV s = true)
    (hwf : wfSpec s = true) :
    truthyPaths (combineFields s s) = truthyPaths (normalizeFields s) := by
  cases s with
  | obj fs =>
    have hnorm : normalizeFields (.obj fs) = .obj fs := by
      simp [normalizeFields, isObjV]
    rw [hnorm]
    simp only [wfSpec, Bool.and_eq_true] at hwf
    have hcomb : combineFields (.obj fs) (.obj fs) =
        deepMergeFields (removeFalsyFields (.obj fs)) (removeFalsyFields (.obj fs)) := by
      simp [combineFields, allFields, truthy]
    rw [hcomb]
    have hrem : removeFalsyFields (.obj fs) =
        .obj (fs.filter (fun p => truthy p.2)) := by
      simp [removeFalsyFields, isObjV, jsEntries]
    rw [hrem]
    have hwfr : wfSpec (.obj (fs.filter (fun p => truthy p.2))) = true := by
      simp only [wfSpec, Bool.and_eq_true]
      exact ⟨noDupKeysE_filter hwf.1, wfEntries_filter hwf.2⟩
    rw [deepMerge_self (sizeOf (JsVal.obj (fs.filter (fun p => truthy p.2))))
      _ le_rfl hwfr]
    simp only [truthyPaths]
    exact truthyPathsE_filter_truthy fs
  | num n => cases hobj
  | inf => cases hobj
  | str s => cases hobj
  | bool b => cases hobj
  | undefined => cases hobj
  | null => cases hobj
  | arr xs => cases hobj

/-- Witness for C6 at a concrete spec containing falsy (exclusion) and
nested leaves. -/
theorem c6_combine_self_idempotent_witness :
    truthyPaths (combineFields
        (.obj [("a", .num 0), ("b", .num 1), ("c", .obj [("d", .num 0), ("e", .num 2)])])
        (.obj [("a", .num 0), ("b", .num 1), ("c", .obj [("d", .num 0), ("e", .num 2)])])) =
      truthyPaths (normalizeFields
        (.obj [("a", .num 0), ("b", .num 1), ("c", .obj [("d", .num 0), ("e", .num 2)])])) :=
  c6_combine_self_idempotent _ rfl rfl

/-- C5: the normalizeFields contract — non-object truthy specs become
the "all fields" sentinel, non-object falsy specs the empty spec, and an
object spec should flatten to `flattenFields spec` when `flatten` is
requested.  The shipped fields.js variant (src/unnamed/part_011 lines
504-508) instead evaluates `flattenFields(fieldsss)` — `fieldsss` is
undefined, so the flatten branch throws a ReferenceError instead of
returning the flattened spec, contradicting the function's own
documentation and its duplicate (lines 260-265); the corrected
definition satisfies the claimed contract at the same input. -/
theorem c5_normalize_flatten_typo :
    normalizeFieldsTypo (.obj [("a", .num 1)]) true =
      .error "ReferenceError: fieldsss is not defined"
    ∧ flattenFields (.obj [("a", .num 1)]) = .obj [("a", .bool true)]
    ∧ normalizeFields (.obj [("a", .num 1)]) true = .obj [("a", .bool true)]
    ∧ normalizeFields (.num 1) = .undefined
    ∧ normalizeFields (.bool false) = .obj []
    ∧ normalizeFields (.obj [("a", .num 1)]) false = .obj [("a", .num 1)] :=
  ⟨rfl, rfl, rfl, rfl, rfl, rfl⟩

/-- The C1 configuration: posts joined to users through the equality
relation `(authorId, _id)` with `single: true`, registered under the
join name `author`. -/
def c1Cfg : Config :=
  { joins := fun c =>
      if c == "posts" then
        [("author", { coll := "users",
                      relOn := .arrRel (.plain "authorId") (.plain "_id") (.obj []),
                      single := true })]
      else [],
    db := fun c =>
      if c == "posts" then
        [.obj [("_id", .num 1), ("authorId", .str "a")],
         .obj [("_id", .num 2), ("authorId", .str "b")]]
      else if c == "users" then
        [.obj [("_id", .str "a"), ("name", .str "Alice")],
         .obj [("_id", .str "b"), ("name", .str "Bob")]]
      else [] }

/-- C1: array/equality join correctness with `single: true` — fetching
the posts with the `author` join field active enriches every parent
document, under the join name, with exactly the unique user whose `_id`
equals that parent's `authorId`. -/
theorem c1_array_join_single_correct :
    (fetchList c1Cfg 3 "posts" (.obj [])
        { fields := .obj [("author", .num 1)] } []).map Prod.fst =
      some
        [.obj [("_id", .num 1), ("authorId", .str "a"),
               ("author", .obj [("_id", .str "a"), ("name", .str "Alice")])],
         .obj [("_id", .num 2), ("authorId", .str "b"),
               ("author", .obj [("_id", .str "b"), ("name", .str "Bob")])]] := rfl

/-- JS `typeof v === "number"` for the modelled values. -/
def isNumericV : JsVal → Bool
  | .num _ => true
  | .inf => true
  | _ => false

/-- The C2 configuration: a users chain A→B→C→D with a recursive
self-join `friends` over the array-valued linking field `friendIds`. -/
def c2Cfg : Config :=
  { joins := fun c =>
      if c == "users" then
        [("friends", { coll := "users",
                       relOn := .arrRel (.wrapped "friendIds") (.plain "_id") (.obj []) })]
      else [],
    db := fun c =>
      if c == "users" then
        [.obj [("_id", .str "A"), ("friendIds", .arr [.str "B"])],
         .obj [("_id", .str "B"), ("friendIds", .arr [.str "C"])],
         .obj [("_id", .str "C"), ("friendIds", .arr [.str "D"])],
         .obj [("_id", .str "D"), ("friendIds", .arr [])]]
      else [] }

/-- C2: depth-limited termination of recursive self-joins.  The
requested depth is decremented by one in the field spec handed to each
recursive fetch (first conjunct), `Infinity` and non-numeric depth
values pass through unchanged (second and third conjuncts), and on the
chain A→B→C→D a request of depth 2 terminates with `A.friends` and
`A.friends[0].friends` populated while `A.friends[0].friends[0]` (the
document C) carries no `friends` key (fourth conjunct: the complete
result, in which C appears without a `friends` entry). -/
theorem c2_recursive_depth_limited :
    (∀ (f : JsVal) (k : String) (n : Int), isObjV f = true →
      getProp f k = .num n →
      decrementRecursiveField none k f = objSet f k (.num (n - 1)))
    ∧ (∀ (f : JsVal) (k : String), getProp f k = .inf →
        decrementRecursiveField none k f = f)
    ∧ (∀ (f : JsVal) (k : String), isNumericV (getProp f k) = false →
        decrementRecursiveField none k f = f)
    ∧ ((fetchList c2Cfg 4 "users" (.obj [("_id", .str "A")])
          { fields := .obj [("friends", .num 2)] } []).map Prod.fst =
        some
          [.obj [("_id", .str "A"), ("friendIds", .arr [.str "B"]),
             ("friends", .arr
               [.obj [("_id", .str "B"), ("friendIds", .arr [.str "C"]),
                  ("friends", .arr
                    [.obj [("_id", .str "C"),
                       ("friendIds", .arr [.str "D"])]])]])]]) := by
  refine ⟨?_, ?_, ?_, rfl⟩
  · intro f k n hobj hnum
    cases f with
    | obj fs => simp [decrementRecursiveField, isObjV, hnum]
    | num m => cases hobj
    | inf => cases hobj
    | str s => cases hobj
    | bool b => cases hobj
    | undefined => cases hobj
    | null => cases hobj
    | arr xs => cases hobj
  · intro f k hinf
    by_cases hobj : isObjV f = true
    · simp [decrementRecursiveField, hobj, hinf]
    · simp only [Bool.not_eq_true] at hobj
      simp [decrementRecursiveField, hobj]
  · intro f k hnn
    by_cases hobj : isObjV f = true
    · cases hv : getProp f k with
      | num m => rw [hv] at hnn; cases hnn
      | inf => rw [hv] at hnn; cases hnn
      | str s => simp [decrementRecursiveField, hobj, hv]
      | bool b => simp [decrementRecursiveField, hobj, hv]
      | undefined => simp [decrementRecursiveField, hobj, hv]
      | null => simp [decrementRecursiveField, hobj, hv]
      | arr xs => simp [decrementRecursiveField, hobj, hv]
      | obj fs => simp [decrementRecursiveField, hobj, hv]
    · simp only [Bool.not_eq_true] at hobj
      simp [decrementRecursiveField, hobj]

/-- Witness for C2: the decrement/pass-through conjuncts applied at
concrete specs (the fourth conjunct is closed). -/
theorem c2_recursive_depth_limited_witness :
    decrementRecursiveField none "friends" (.obj [("friends", .num 2)]) =
      objSet (.obj [("friends", .num 2)]) "friends" (.num (2 - 1))
    ∧ decrementRecursiveField none "friends" (.obj [("friends", .inf)]) =
      .obj [("friends", .inf)]
    ∧ decrementRecursiveField none "friends" (.obj [("friends", .bool true)]) =
      .obj [("friends", .bool true)] :=
  ⟨c2_recursive_depth_limited.1 _ "friends" 2 rfl rfl,
   c2_recursive_depth_limited.2.1 _ "friends" rfl,
   c2_recursive_depth_limited.2.2.1 _ "friends" rfl⟩

/-- C9: eager fail-fast registration validation.  Registration validates
each join-map entry synchronously (the fetch path embedded above
performs no validation): a falsy target collection fails with a
configuration error naming the join; a truthy target with a falsy
relation fails with an error naming the join; a truthy relation value
whose runtime type is neither array, object nor function fails with an
error naming that type; and a function relation without declared fields
succeeds while emitting exactly the non-fatal warning. -/
theorem c9_registration_validation :
    (∀ (k : String) (e : RegEntry), truthy e.coll = false →
      joinRegistration [(k, e)] =
        .error ("Collection Coll for " ++ k ++ " join is required."))
    ∧ (∀ (k : String) (e : RegEntry), truthy e.coll = true →
        regTruthyOn e.regOn = false →
        joinRegistration [(k, e)] =
          .error ("Join " ++ k ++ " has no on condition specified."))
    ∧ (∀ (k : String) (v : JsVal), truthy v = true →
        isArrV v = false → isObjV v = false →
        joinRegistration [(k, { coll := .str "C", regOn := .val v })] =
          .error ("Join " ++ k ++ " has an unrecognized on condition type of " ++
            typeOfV v ++ ". Should be one of array, function, object."))
    ∧ (∀ (k : String) (cv fv : JsVal), truthy cv = true → truthy fv = false →
        joinRegistration [(k, { coll := cv, regOn := .fnOn, fields := fv })] =
          .ok [fnWarnMsg k]) := by
  refine ⟨?_, ?_, ?_, ?_⟩
  · intro k e h
    simp [joinRegistration, validateEntry, h]
  · intro k e hc hon
    simp [joinRegistration, validateEntry, hc, hon]
  · intro k v hv ha ho
    cases v with
    | num n =>
      simp only [truthy] at hv
      simp [joinRegistration, validateEntry, regTruthyOn, regTypeOf,
        typeOfV, KNOWN_TYPES, truthy, hv]
    | inf =>
      simp [joinRegistration, validateEntry, regTruthyOn, regTypeOf,
        typeOfV, KNOWN_TYPES, truthy]
    | str s =>
      simp only [truthy] at hv
      simp [joinRegistration, validateEntry, regTruthyOn, regTypeOf,
        typeOfV, KNOWN_TYPES, truthy, hv]
    | bool b =>
      simp only [truthy] at hv
      simp [joinRegistration, validateEntry, regTruthyOn, regTypeOf,
        typeOfV, KNOWN_TYPES, truthy, hv]
    | undefined => cases hv
    | null => cases hv
    | arr xs => cases ha
    | obj fs => cases ho
  · intro k cv fv hc hf
    simp [joinRegistration, validateEntry, hc, hf, regTruthyOn, regIsFn,
      regTypeOf, KNOWN_TYPES]

/-- Witness for C9: the four validation outcomes at concrete entries. -/
theorem c9_registration_validation_witness :
    joinRegistration [("author", { coll := .undefined, regOn := .val (.arr []) })] =
      .error "Collection Coll for author join is required."
    ∧ joinRegistration [("author", { coll := .str "U", regOn := .val .undefined })] =
      .error "Join author has no on condition specified."
    ∧ joinRegistration [("author", { coll := .str "C", regOn := .val (.str "x") })] =
      .error ("Join author has an unrecognized on condition type of string. Should be one of array, function, object.")
    ∧ joinRegistration [("author", { coll := .str "U", regOn := .fnOn })] =
      .ok [fnWarnMsg "author"] :=
  ⟨c9_registration_validation.1 "author" _ rfl,
   c9_registration_validation.2.1 "author" _ rfl rfl,
   c9_registration_validation.2.2.1 "author" (.str "x") rfl rfl rfl,
   c9_registration_validation.2.2.2 "author" (.str "U") .undefined rfl rfl⟩

/-- The C8 store: one post, its user, one item. -/
def c8Db : String → List JsVal := fun c =>
  if c == "posts" then [.obj [("_id", .num 1), ("authorId", .str "a")]]
  else if c == "users" then [.obj [("_id", .str "a"), ("name", .str "Alice")]]
  else if c == "items" then [.obj [("_id", .str "i")]]
  else []

/-- The C8 joins: one join of each relation variant on the posts
collection. -/
def c8Joins : String → List (String × JoinDef) := fun c =>
  if c == "posts" then
    [("author", { coll := "users",
                  relOn := .arrRel (.plain "authorId") (.plain "_id") (.obj []),
                  single := true }),
     ("pinned", { coll := "items", relOn := .objRel (.obj [("_id", .str "i")]) }),
     ("rel", { coll := "items",
               relOn := .fnRel (fun d => .obj [("parentId", getProp d "_id")]) })]
  else []

/-- C8 configuration for the per-call transform option. -/
def c8CfgOpt : Config := { joins := c8Joins, db := c8Db }

/-- A tagging transform: its output records exactly the document shape
it was given. -/
def tagTf : JsVal → JsVal := fun d => .obj [("transformed", d)]

/-- C8 configuration with the transform supplied per collection through
the storage protocol's `getTransform`. -/
def c8CfgColl : Config :=
  { joins := c8Joins, db := c8Db,
    getTransform := fun c => if c == "posts" then some tagTf else none }

/-- The post after all three join variants have attached their results —
the shape every configured transform observes. -/
def c8Joined1 : JsVal :=
  .obj [("_id", .num 1), ("authorId", .str "a"),
        ("author", .obj [("_id", .str "a"), ("name", .str "Alice")]),
        ("pinned", .arr [.obj [("_id", .str "i")]]),
        ("rel", .arr [])]

/-- The exact protocol trace of the C8 fetch: every `findList` call —
the base query included — carries `transform: null` (the `true` flag),
so the store never applies the transform itself. -/
def c8Trace : Trace :=
  [.findC "posts" (.obj []) .undefined true none,
   .findC "users" (.obj [("_id", .obj [("$in", .arr [.str "a"])])])
     (.obj []) true none,
   .findC "items" (.obj [("_id", .str "i")]) (.obj []) true none,
   .findC "items" (.obj [("parentId", .num 1)]) (.obj []) true none]

set_option maxHeartbeats 1000000 in
/-- C8: transform ordering.  With all three join variants active, an
arbitrary transform `f` configured per call through the `transform`
option receives exactly the fully joined document (`c8Joined1` carries
the `author`, `pinned` and `rel` join keys) — the result is literally
`f c8Joined1` whatever `f` is, so the transform never observes the
pre-join shape; the per-collection transform supplied through the
protocol's `getTransform` behaves identically (second conjunct, with
the tagging transform recording its input); and the base fetch (first
trace entry), like every nested fetch, is issued with the transform
suppressed (`transform: null`). -/
theorem c8_transform_sees_joined_shape (f : JsVal → JsVal) :
    fetchList c8CfgOpt 3 "posts" (.obj [])
        { fields := .obj [("author", .num 1), ("pinned", .num 1), ("rel", .num 1)],
          tOpt := .fnT f } [] =
      some ([f c8Joined1], c8Trace)
    ∧ fetchList c8CfgColl 3 "posts" (.obj [])
        { fields := .obj [("author", .num 1), ("pinned", .num 1), ("rel", .num 1)] } [] =
      some ([tagTf c8Joined1], c8Trace) :=
  ⟨rfl, rfl⟩

/-- Top-level entry values that are booleans. -/
def isBoolV : JsVal → Bool
  | .bool _ => true
  | _ => false

/-- All entries of a list hold boolean values. -/
def allBoolE (fs : List (String × JsVal)) : Bool :=
  fs.all (fun p => isBoolV p.2)

theorem allBoolE_set {fs : List (String × JsVal)} {k : String} {v : JsVal}
    (h : allBoolE fs = true) (hv : isBoolV v = true) :
    allBoolE (objSetEntries fs k v) = true := by
  unfold objSetEntries
  by_cases hany : fs.any (fun p => p.1 == k) = true
  · simp only [hany, if_true]
    simp only [allBoolE, List.all_eq_true] at h ⊢
    intro p hp
    rcases List.mem_map.mp hp with ⟨q, hq, hqe⟩
    by_cases hqk : (q.1 == k) = true
    · simp only [hqk, if_true] at hqe
      rw [← hqe]
      exact hv
    · simp only [Bool.not_eq_true] at hqk
      simp only [hqk, Bool.false_eq_true, if_false] at hqe
      rw [← hqe]
      exact h q hq
  · simp only [Bool.not_eq_true] at hany
    simp only [hany, Bool.false_eq_true, if_false]
    simp only [allBoolE, List.all_eq_true] at h ⊢
    intro p hp
    rcases List.mem_append.mp hp with hp | hp
    · exact h p hp
    · rcases List.mem_singleton.mp hp with rfl
      exact hv

theorem allBoolE_spreadList {bs : List (String × JsVal)} :
    ∀ (as : List (String × JsVal)), allBoolE as = true → allBoolE bs = true →
    allBoolE (bs.foldl (fun acc p => objSetEntries acc p.1 p.2) as) = true := by
  induction bs with
  | nil => intro as ha _; exact ha
  | cons q rest ih =>
    intro as ha hb
    simp only [allBoolE, List.all_cons, Bool.and_eq_true] at hb
    simp only [List.foldl_cons]
    exact ih _ (allBoolE_set ha hb.1) hb.2

theorem noDollarEntries_mem {fs : List (String × JsVal)} {p : String × JsVal}
    (h : noDollarEntries fs = true) (hp : p ∈ fs) :
    noDollarDeep p.2 = true := by
  induction fs with
  | nil => cases hp
  | cons q rest ih =>
    obtain ⟨k, v⟩ := q
    simp only [noDollarEntries, Bool.and_eq_true] at h
    cases hp with
    | head => exact h.1.2
    | tail _ hp => exact ih h.2 hp

theorem noDollarEntries_nokey {fs : List (String × JsVal)}
    (h : noDollarEntries fs = true) :
    fs.any (fun p => startsWithDollar p.1) = false := by
  induction fs with
  | nil => rfl
  | cons q rest ih =>
    obtain ⟨k, v⟩ := q
    simp only [noDollarEntries, Bool.and_eq_true, Bool.not_eq_true'] at h
    simp only [List.any_cons, Bool.or_eq_false_iff]
    exact ⟨h.1.1, ih h.2⟩

theorem flattenFields_allBool : ∀ (n : Nat) (spec : JsVal) (root : Option String),
    sizeOf spec ≤ n → noDollarDeep spec = true →
    allBoolE (jsEntries (flattenFields spec root)) = true := by
  intro n
  induction n with
  | zero =>
    intro spec _ hs _
    exfalso
    have : 0 < sizeOf spec := by
      cases spec <;> simp_arith
    omega
  | succ n ih =>
    intro spec root hs hnd
    cases spec with
    | obj fs =>
      simp only [noDollarDeep] at hnd
      simp only [flattenFields, truthy, Bool.not_true, Bool.false_eq_true,
        if_false, noDollarEntries_nokey hnd, ite_false]
      have inner : ∀ (fs2 : List (String × JsVal)) (acc : JsVal),
          (∀ p ∈ fs2, p ∈ fs) → allBoolE (jsEntries acc) = true →
          allBoolE (jsEntries (flattenEntries (.obj fs) fs2 root acc)) = true := by
        intro fs2
        induction fs2 with
        | nil => intro acc _ hacc; exact hacc
        | cons q rest ihq =>
          intro acc hsub hacc
          obtain ⟨k, v⟩ := q
          have hmem : (k, v) ∈ fs := hsub _ (List.mem_cons_self _ _)
          have hrest : ∀ p ∈ rest, p ∈ fs :=
            fun p hp => hsub p (List.mem_cons_of_mem _ hp)
          simp only [flattenEntries]
          by_cases hdrop :
              (match splitDots k with
               | sub :: _ :: _ =>
                 truthy (getProp (JsVal.obj fs) sub) &&
                   !isObjV (getProp (JsVal.obj fs) sub)
               | _ => false) = true
          · simp only [hdrop, if_true]
            exact ihq acc hrest hacc
          · simp only [Bool.not_eq_true] at hdrop
            simp only [hdrop, Bool.false_eq_true, if_false]
            by_cases hov : isObjV v = true
            · simp only [hov, Bool.not_true, Bool.false_eq_true, if_false]
              apply ihq _ hrest
              simp only [objSpread, jsEntries]
              apply allBoolE_spreadList _ hacc
              apply ih v _ _ (noDollarEntries_mem hnd hmem)
              have := sizeOf_snd_lt_obj fs k v hmem
              omega
            · simp only [Bool.not_eq_true] at hov
              simp only [hov, Bool.not_false, if_true]
              apply ihq _ hrest
              exact allBoolE_set hacc rfl
      exact inner fs .undefined (fun p hp => hp) rfl
    | num m =>
      by_cases hz : m = 0
      · subst hz; rfl
      · simp [flattenFields, truthy, hz, jsEntries, allBoolE]
    | inf => rfl
    | str s =>
      by_cases hz : s = ""
      · subst hz; rfl
      · simp [flattenFields, truthy, hz, jsEntries, allBoolE]
    | bool b => cases b <;> rfl
    | undefined => rfl
    | null => rfl
    | arr xs => rfl

/-- C10 counterexample: the claim asserts every non-object leaf `v` of a
`$`-free spec appears in the flattened output as `!!v`, but the leaf `5`
at the dot-notation key `"a.b"` is dropped entirely (its root segment
`a` is separately selected by a truthy non-object leaf), and no `"a.b"`
key appears at all — even though `!!5` is `true`. -/
theorem c10_counterexample_collision_drop :
    noDollarDeep (.obj [("a", .num 1), ("a.b", .num 5)]) = true
    ∧ flattenFields (.obj [("a", .num 1), ("a.b", .num 5)]) =
        .obj [("a", .bool true)]
    ∧ objHasKey (flattenFields (.obj [("a", .num 1), ("a.b", .num 5)])) "a.b" =
        false
    ∧ truthy (.num 5) = true :=
  ⟨rfl, rfl, rfl, rfl⟩

/-- C10 (amended): for every field spec with no `$`-prefixed operator
key at any level, every value of the flattened output is a boolean (so
numeric values such as join recursion depths never survive flattening as
numbers), and each kept non-object leaf is coerced to `!!v`; however a
leaf at a dot-notation key whose root segment is separately selected as
a truthy non-object leaf is dropped from the output entirely rather than
appearing as `!!v` (second conjunct: such an entry contributes nothing),
as in the concrete flattening of the third conjunct. -/
theorem c10_flatten_bool_coercion_amended :
    (∀ (spec : JsVal) (root : Option String), noDollarDeep spec = true →
      allBoolE (jsEntries (flattenFields spec root)) = true)
    ∧ (∀ (orig : JsVal) (k : String) (v : JsVal)
        (rest : List (String × JsVal)) (root : Option String) (acc : JsVal)
        (sub t2 : String) (ts : List String),
        splitDots k = sub :: t2 :: ts →
        truthy (getProp orig sub) = true → isObjV (getProp orig sub) = false →
        flattenEntries orig ((k, v) :: rest) root acc =
          flattenEntries orig rest root acc)
    ∧ flattenFields
        (.obj [("a", .num 1), ("b", .obj [("c", .num 2)]), ("d", .num 0),
               ("x.y", .num 7)]) =
      .obj [("a", .bool true), ("b.c", .bool true), ("d", .bool false),
            ("x.y", .bool true)] := by
  refine ⟨?_, ?_, rfl⟩
  · intro spec root hnd
    exact flattenFields_allBool (sizeOf spec) spec root le_rfl hnd
  · intro orig k v rest root acc sub t2 ts hsplit ht ho
    simp [flattenEntries, hsplit, ht, ho]

/-- Witness for C10 (amended): the boolean-coercion conjunct applied to
a spec carrying a numeric join depth, and the drop conjunct applied at
the counterexample entry. -/
theorem c10_flatten_bool_coercion_amended_witness :
    allBoolE (jsEntries (flattenFields (.obj [("friends", .num 2)]) none)) = true
    ∧ flattenEntries (.obj [("a", .num 1), ("a.b", .num 5)])
        [("a.b", .num 5)] none (.obj [("a", .bool true)]) =
      flattenEntries (.obj [("a", .num 1), ("a.b", .num 5)]) [] none
        (.obj [("a", .bool true)]) :=
  ⟨c10_flatten_bool_coercion_amended.1 _ none rfl,
   c10_flatten_bool_coercion_amended.2.1 _ "a.b" (.num 5) [] none _ "a" "b" []
     rfl rfl rfl⟩

theorem map_eq_of_eq {α β : Type} (l : List α) (f g : α → β)
    (h : ∀ a ∈ l, f a = g a) : l.map f = l.map g := by
  induction l with
  | nil => rfl
  | cons x rest ih =>
    simp only [List.map_cons]
    rw [h x (List.mem_cons_self x rest), ih (fun a ha => h a (List.mem_cons_of_mem x ha))]

theorem flatMap_const_nil {α β : Type} (l : List α) :
    l.flatMap (fun _ => ([] : List β)) = [] := by
  induction l with
  | nil => rfl
  | cons x rest ih => simp [List.flatMap_cons, ih]

/-- Attaching the empty joined set yields the empty array, or
`undefined` under `single`, fed through `postFetch` when present. -/
theorem attachFn_empty (key : String) (jd : JoinDef) (d : JsVal) :
    attachFn key jd [] d =
      objSet d key (postApply jd.postFetch
        (if jd.single then .undefined else .arr []) d) := by
  cases h : jd.single <;> simp [attachFn, headOrUndef, h]

/-- Distributing an empty child fetch attaches the empty value onto
every parent document, whatever the relation's linking shapes. -/
theorem arrAttachAll_nil (key : String) (jd : JoinDef) (fp tp : PropRef)
    (docs : List JsVal) :
    arrAttachAll key jd fp tp [] docs =
      docs.map (fun d =>
        objSet d key (postApply jd.postFetch
          (if jd.single then .undefined else .arr []) d)) := by
  unfold arrAttachAll
  apply map_eq_of_eq
  intro d _
  have hjoined :
      (match tp with
       | .wrapped ts =>
         ([] : List JsVal).filter (fun jdoc =>
           let toList := asArrD (getProp jdoc ts)
           match fp with
           | .plain fs2 => toList.any (fun x => jsBeq x (getProp d fs2))
           | .wrapped fs2 =>
             (asArrD (getProp d fs2)).any (fun el => toList.any (fun x => jsBeq x el)))
       | .plain _ =>
         match fp with
         | .wrapped fs2 =>
           uniqueById ((asArrD (getProp d fs2)).flatMap
             (fun fv => idxLookup (buildIndex (propName tp) []) (jsKeyString fv)))
         | .plain fs2 =>
           idxLookup (buildIndex (propName tp) []) (jsKeyString (getProp d fs2))) =
      ([] : List JsVal) := by
    cases tp with
    | wrapped ts => rfl
    | plain ts =>
      cases fp with
      | wrapped fs2 =>
        have : (asArrD (getProp d fs2)).flatMap
            (fun fv => idxLookup (buildIndex (propName (.plain ts)) []) (jsKeyString fv)) = [] :=
          flatMap_const_nil _
        simp only [this]
        rfl
      | plain fs2 => rfl
  simp only [buildIndex, List.foldl_nil] at hjoined ⊢
  rw [hjoined]
  cases h : jd.single <;> simp [headOrUndef, h]

/-- The C3 counterexample configuration: a recursive self-join `similar`
on users whose selector matches nothing, with a `postFetch` that replaces
the joined value by the string `"X"`. -/
def c3Cfg : Config :=
  { joins := fun c =>
      if c == "users" then
        [("similar", { coll := "users",
                       relOn := .arrRel (.plain "k") (.plain "_id") (.obj []),
                       postFetch := some (fun _ _ => .str "X") })]
      else [],
    db := fun c =>
      if c == "users" then [.obj [("_id", .str "u"), ("k", .str "zzz")]] else [] }

/-- C3 counterexample: the existence probe of this recursive self-join
returns zero and no nested fetch is issued (the trace holds only the
base `findList` and the probe), but the value attached under the join
name is the `postFetch` result `"X"` — neither an empty array nor
`undefined` — refuting the claimed attached value as stated. -/
theorem c3_counterexample_postfetch :
    fetchList c3Cfg 3 "users" (.obj [])
        { fields := .obj [("similar", .num 2)] } [] =
      some ([.obj [("_id", .str "u"), ("k", .str "zzz"), ("similar", .str "X")]],
        [.findC "users" (.obj []) .undefined true none,
         .countC "users" (.obj [("_id", .obj [("$in", .arr [.str "zzz"])])])])
    ∧ JsVal.str "X" ≠ .arr []
    ∧ JsVal.str "X" ≠ .undefined :=
  ⟨rfl, fun h => JsVal.noConfusion h, fun h => JsVal.noConfusion h⟩

/-- C3 (amended): whenever the existence probe of a recursive self-join
(array relation with requested depth above one, or any join routed
through the shared join fetcher with truthy requested fields) counts
zero, no nested fetch is issued for that branch — the outcome below is
the same for every nested-fetch function `rec`, and the trace gains only
the probe call — and the value attached under the join name is the empty
array (`undefined` when `single`), fed through `postFetch` when the join
declares one. -/
theorem c3_empty_probe_short_circuit :
    (∀ (cfg : Config) (rec : FetchFn) (coll key : String) (jd : JoinDef)
      (fp tp : PropRef) (ts fullFields joinFields : JsVal)
      (rT : TransformOpt) (docs : List JsVal) (tr : Trace),
      jd.relOn = .arrRel fp tp ts →
      jd.coll = coll →
      jsGt1 (getProp joinFields key) = true →
      countValue cfg coll (arrSubSelector fp tp ts docs) = 0 →
      arrJoinStep cfg rec coll fullFields joinFields rT key jd docs tr =
        some (docs.map (fun d =>
            objSet d key (postApply jd.postFetch
              (if jd.single then .undefined else .arr []) d)),
          tr ++ [.countC coll (arrSubSelector fp tp ts docs)]))
    ∧ (∀ (cfg : Config) (rec : FetchFn) (coll key : String) (jd : JoinDef)
        (fieldsArg parentFields subSel : JsVal) (tr : Trace),
        jd.coll = coll →
        truthy fieldsArg = true →
        countValue cfg coll subSel = 0 →
        createJoinFetcher cfg rec coll key jd fieldsArg parentFields subSel tr =
          some (attachFn key jd [], tr ++ [.countC coll subSel]))
    ∧ (∀ (key : String) (jd : JoinDef) (d : JsVal),
        attachFn key jd [] d =
          objSet d key (postApply jd.postFetch
            (if jd.single then .undefined else .arr []) d)) := by
  refine ⟨?_, ?_, attachFn_empty⟩
  · intro cfg rec coll key jd fp tp ts fullFields joinFields rT docs tr
      hrel hcoll hdepth hcnt
    have hbeq : (jd.coll == coll) = true := by simp [hcoll]
    simp only [arrJoinStep, hrel, hbeq, hdepth, Bool.and_self, if_true]
    simp only [hcnt, beq_self_eq_true, if_true]
    rw [arrAttachAll_nil]
  · intro cfg rec coll key jd fieldsArg parentFields subSel tr hcoll hfa hcnt
    have hbeq : (jd.coll == coll) = true := by simp [hcoll]
    simp [createJoinFetcher, hbeq, hfa, hcnt]

/-- Witness for C3 (amended): the probe-zero short circuit applied at
the concrete counterexample configuration (array branch and shared
fetcher), and the empty-attach shape at a concrete document. -/
theorem c3_empty_probe_short_circuit_witness :
    arrJoinStep c3Cfg (fun _ _ _ _ => none) "users"
        (.obj [("similar", .num 2)]) (.obj [("similar", .num 2)]) .undefT
        "similar"
        { coll := "users", relOn := .arrRel (.plain "k") (.plain "_id") (.obj []),
          postFetch := some (fun _ _ => .str "X") }
        [.obj [("_id", .str "u"), ("k", .str "zzz")]] [] =
      some ([.obj [("_id", .str "u"), ("k", .str "zzz"), ("similar", .str "X")]],
        [.countC "users" (.obj [("_id", .obj [("$in", .arr [.str "zzz"])])])])
    ∧ createJoinFetcher c3Cfg (fun _ _ _ _ => none) "users" "self2"
        { coll := "users", relOn := .objRel (.obj [("_id", .str "nobody")]) }
        (.num 1) (.obj [("self2", .num 1)]) (.obj [("_id", .str "nobody")]) [] =
      some (attachFn "self2"
          { coll := "users", relOn := .objRel (.obj [("_id", .str "nobody")]) } [],
        [.countC "users" (.obj [("_id", .str "nobody")])]) := by
  constructor
  · have h := c3_empty_probe_short_circuit.1 c3Cfg (fun _ _ _ _ => none) "users"
      "similar"
      { coll := "users", relOn := .arrRel (.plain "k") (.plain "_id") (.obj []),
        postFetch := some (fun _ _ => .str "X") }
      (.plain "k") (.plain "_id") (.obj []) (.obj [("similar", .num 2)])
      (.obj [("similar", .num 2)]) .undefT
      [.obj [("_id", .str "u"), ("k", .str "zzz")]] [] rfl rfl rfl rfl
    exact h
  · exact c3_empty_probe_short_circuit.2.1 c3Cfg (fun _ _ _ _ => none) "users"
      "self2"
      { coll := "users", relOn := .objRel (.obj [("_id", .str "nobody")]) }
      (.num 1) (.obj [("self2", .num 1)]) (.obj [("_id", .str "nobody")]) []
      rfl rfl rfl

/-- The C7 counterexample configuration: a non-empty users collection
with a static-selector (object relation) self-join. -/
def c7Cfg : Config :=
  { joins := fun c =>
      if c == "users" then
        [("self", { coll := "users", relOn := .objRel (.obj []) })]
      else [],
    db := fun c => if c == "users" then [.obj [("_id", .num 1)]] else [] }

/-- C7 counterexample: requesting the object-relation self-join with
depth value `0` — not greater than one — still issues the existence
probe (the `countC` trace entry), and the nested fetch is skipped even
though the probe counts `1`, not zero: the shared join fetcher neither
restricts the probe to depths above one nor skips only on a zero
count, refuting the claim as stated. -/
theorem c7_counterexample_probe_parity :
    jsGt1 (.num 0) = false
    ∧ countValue c7Cfg "users" (.obj []) = 1
    ∧ fetchList c7Cfg 3 "users" (.obj [])
        { fields := .obj [("self", .num 0)] } [] =
      some ([.obj [("_id", .num 1), ("self", .arr [])]],
        [.findC "users" (.obj []) .undefined true none,
         .countC "users" (.obj [])]) :=
  ⟨rfl, rfl, rfl⟩

/-- C7 (amended): in the shared join fetcher used by object- and
function-relation joins, the existence probe is issued exactly when the
target collection equals the parent collection — regardless of the
requested depth — and the nested fetch is skipped exactly when, in
addition, the requested join-field value is falsy or the probe counts
zero.  First conjunct: self-join with falsy fields or zero count — the
probe is logged and the outcome is independent of the nested-fetch
function `rec`.  Second conjunct: self-join with truthy fields and a
non-zero count — the probe is logged and the nested fetch runs with the
depth-decremented parent spec.  Third conjunct: distinct collections —
no probe, and the nested fetch always runs with the join's requested
fields.  (The array-join branch of `fetchList`, by contrast, does gate
its probe on depth above one: see `arrJoinStep`.) -/
theorem c7_join_fetcher_probe_guard :
    (∀ (cfg : Config) (rec : FetchFn) (coll key : String) (jd : JoinDef)
      (fieldsArg parentFields subSel : JsVal) (tr : Trace),
      jd.coll = coll →
      (truthy fieldsArg = false ∨ countValue cfg coll subSel = 0) →
      createJoinFetcher cfg rec coll key jd fieldsArg parentFields subSel tr =
        some (attachFn key jd [], tr ++ [.countC coll subSel]))
    ∧ (∀ (cfg : Config) (rec : FetchFn) (coll key : String) (jd : JoinDef)
        (fieldsArg parentFields subSel : JsVal) (tr : Trace),
        jd.coll = coll →
        truthy fieldsArg = true →
        countValue cfg coll subSel ≠ 0 →
        createJoinFetcher cfg rec coll key jd fieldsArg parentFields subSel tr =
          fetcherWrap key jd
            (rec jd.coll subSel
              (fetcherSubOpts jd (decrementRecursiveField cfg.pfx key parentFields))
              (tr ++ [.countC coll subSel])))
    ∧ (∀ (cfg : Config) (rec : FetchFn) (coll key : String) (jd : JoinDef)
        (fieldsArg parentFields subSel : JsVal) (tr : Trace),
        jd.coll ≠ coll →
        createJoinFetcher cfg rec coll key jd fieldsArg parentFields subSel tr =
          fetcherWrap key jd (rec jd.coll subSel (fetcherSubOpts jd fieldsArg) tr)) := by
  refine ⟨?_, ?_, ?_⟩
  · intro cfg rec coll key jd fieldsArg parentFields subSel tr hcoll hskip
    have hbeq : (jd.coll == coll) = true := by simp [hcoll]
    rcases hskip with hfa | hcnt
    · simp [createJoinFetcher, hbeq, hfa]
    · simp [createJoinFetcher, hbeq, hcnt]
  · intro cfg rec coll key jd fieldsArg parentFields subSel tr hcoll hfa hcnt
    have hbeq : (jd.coll == coll) = true := by simp [hcoll]
    simp [createJoinFetcher, hbeq, hfa, hcnt]
  · intro cfg rec coll key jd fieldsArg parentFields subSel tr hcoll
    have hbeq : (jd.coll == coll) = false := by simp [hcoll]
    simp [createJoinFetcher, hbeq]

/-- A stub nested-fetch function (used only to instantiate witnesses). -/
def recStub : FetchFn := fun _ _ _ _ => some ([], [])

/-- Witness for C7 (amended): the three fetcher behaviors at the
concrete counterexample configuration. -/
theorem c7_join_fetcher_probe_guard_witness :
    createJoinFetcher c7Cfg recStub "users" "self"
        { coll := "users", relOn := .objRel (.obj []) } (.num 0)
        (.obj [("self", .num 0)]) (.obj []) [] =
      some (attachFn "self" { coll := "users", relOn := .objRel (.obj []) } [],
        [.countC "users" (.obj [])])
    ∧ createJoinFetcher c7Cfg recStub "users" "self"
        { coll := "users", relOn := .objRel (.obj []) } (.num 2)
        (.obj [("self", .num 2)]) (.obj []) [] =
      fetcherWrap "self" { coll := "users", relOn := .objRel (.obj []) }
        (recStub "users" (.obj [])
          (fetcherSubOpts { coll := "users", relOn := .objRel (.obj []) }
            (decrementRecursiveField none "self" (.obj [("self", .num 2)])))
          [.countC "users" (.obj [])])
    ∧ createJoinFetcher c7Cfg recStub "posts" "self"
        { coll := "users", relOn := .objRel (.obj []) } (.num 2)
        (.obj [("self", .num 2)]) (.obj []) [] =
      fetcherWrap "self" { coll := "users", relOn := .objRel (.obj []) }
        (recStub "users" (.obj [])
          (fetcherSubOpts { coll := "users", relOn := .objRel (.obj []) } (.num 2))
          []) :=
  ⟨c7_join_fetcher_probe_guard.1 c7Cfg _ "users" "self" _ (.num 0)
      (.obj [("self", .num 0)]) (.obj []) [] rfl (Or.inl rfl),
   c7_join_fetcher_probe_guard.2.1 c7Cfg _ "users" "self" _ (.num 2)
      (.obj [("self", .num 2)]) (.obj []) [] rfl rfl (by decide),
   c7_join_fetcher_probe_guard.2.2 c7Cfg _ "posts" "self" _ (.num 2)
      (.obj [("self", .num 2)]) (.obj []) [] (by decide)⟩

theorem filter_matchesSel_empty (ds : List JsVal) :
    ds.filter (fun d => matchesSel (.obj []) d) = ds := by
  induction ds with
  | nil => rfl
  | cons d rest ih => simp [List.filter_cons, matchesSel, ih]

theorem map_project_undef (ds : List JsVal) :
    ds.map (fun d => project .undefined d) = ds :=
  map_id_of_eq ds _ (fun _ _ => rfl)

theorem countP_append_trace (p : PCall → Bool) (a b : Trace) :
    List.countP p (a ++ b) = List.countP p a + List.countP p b :=
  List.countP_append p a b

theorem countP_map_true {α : Type} (l : List α) (f : α → PCall)
    (p : PCall → Bool) (h : ∀ a, p (f a) = true) :
    List.countP p (l.map f) = l.length := by
  induction l with
  | nil => rfl
  | cons x rest ih =>
    simp [List.map_cons, List.countP_cons, h x, ih, List.length_cons]

/-- With no function joins, the per-document pass applies the object
enhancers and the transform purely: the trace is untouched (no
per-document query is issued). -/
theorem perDocJoins_no_fn (cfg : Config) (rec : FetchFn) (coll : String)
    (jf pf : JsVal) (enhs : List (JsVal → JsVal)) (enh : JsVal → JsVal) :
    ∀ (docs : List JsVal) (tr : Trace),
    perDocJoins cfg rec coll jf pf enhs [] enh docs tr =
      some (docs.map (fun d => enh (enhs.foldl (fun x g => g x) d)), tr) := by
  intro docs
  induction docs with
  | nil => intro tr; rfl
  | cons d rest ih =>
    intro tr
    simp only [perDocJoins, fnJoinsFold, ih, List.map_cons]

/-- The C4 object-relation join (a static selector against items). -/
def c4JdObj : JoinDef :=
  { coll := "items", relOn := .objRel (.obj [("k", .num 1)]) }

/-- The C4 function-relation join (a per-parent selector against items,
so selectors differ whenever the parents' ids differ). -/
def c4JdFn : JoinDef :=
  { coll := "items",
    relOn := .fnRel (fun d => .obj [("parentId", getProp d "_id")]) }

/-- The C4 configuration with one active object join on posts, over an
arbitrary list of parent documents. -/
def c4CfgObj (ds : List JsVal) : Config :=
  { joins := fun c => if c == "posts" then [("pinned", c4JdObj)] else [],
    db := fun c => if c == "posts" then ds else [] }

/-- The C4 configuration with one active function join on posts. -/
def c4CfgFn (ds : List JsVal) : Config :=
  { joins := fun c => if c == "posts" then [("rel", c4JdFn)] else [],
    db := fun c => if c == "posts" then ds else [] }

/-- The object-join fetch reduces to one child query (already in the
trace) before any per-document work: only the per-document pass
remains, and it issues no further queries. -/
theorem c4_obj_reduce (ds : List JsVal) :
    fetchList (c4CfgObj ds) 3 "posts" (.obj [])
        { fields := .obj [("pinned", .num 1)] } [] =
      perDocJoins (c4CfgObj ds) (fetchList (c4CfgObj ds) 2) "posts"
        (.obj [("pinned", .num 1)]) (.obj [("pinned", .num 1)])
        [attachFn "pinned" c4JdObj []] [] (fun d => d)
        ((ds.filter (fun d => matchesSel (.obj []) d)).map
          (fun d => project .undefined d))
        [.findC "posts" (.obj []) .undefined true none,
         .findC "items" (.obj [("k", .num 1)]) (.obj []) true none] := rfl

/-- The function-join fetch reaches the per-document pass with only the
base query in the trace: every child query is issued per document. -/
theorem c4_fn_reduce (ds : List JsVal) :
    fetchList (c4CfgFn ds) 3 "posts" (.obj [])
        { fields := .obj [("rel", .num 1)] } [] =
      perDocJoins (c4CfgFn ds) (fetchList (c4CfgFn ds) 2) "posts"
        (.obj [("rel", .num 1)]) (.obj [("rel", .num 1)])
        [] [("rel", c4JdFn)] (fun d => d)
        ((ds.filter (fun d => matchesSel (.obj []) d)).map
          (fun d => project .undefined d))
        [.findC "posts" (.obj []) .undefined true none] := rfl

/-- The per-document pass of the function join issues exactly one child
query per document. -/
theorem c4_fn_perDoc (ds : List JsVal) : ∀ (docs : List JsVal) (tr : Trace),
    perDocJoins (c4CfgFn ds) (fetchList (c4CfgFn ds) 2) "posts"
      (.obj [("rel", .num 1)]) (.obj [("rel", .num 1)]) [] [("rel", c4JdFn)]
      (fun d => d) docs tr =
    some (docs.map (fun d => objSet d "rel" (.arr [])),
      tr ++ docs.map (fun d =>
        PCall.findC "items" (.obj [("parentId", getProp d "_id")])
          (.obj []) true none)) := by
  intro docs
  induction docs with
  | nil => intro tr; simp [perDocJoins]
  | cons d rest ih =>
    intro tr
    have hstep : fnJoinsFold (c4CfgFn ds) (fetchList (c4CfgFn ds) 2) "posts"
        (.obj [("rel", .num 1)]) (.obj [("rel", .num 1)]) d [("rel", c4JdFn)] d tr =
      some (objSet d "rel" (.arr []),
        tr ++ [.findC "items" (.obj [("parentId", getProp d "_id")])
          (.obj []) true none]) := rfl
    simp only [perDocJoins, List.foldl_nil, hstep, ih, List.map_cons]
    simp [List.append_assoc]

/-- C4: join query counts.  For every list of parent documents `ds` (the
base fetch returns all of them, `r.1.length = ds.length`), resolving the
single active object-relation join issues exactly one `findList` against
the target collection regardless of the number of parents, while
resolving the single active function-relation join (whose per-parent
selectors differ with the parents' ids) issues exactly one `findList`
against the target per parent document. -/
theorem c4_join_query_counts :
    (∀ ds : List JsVal,
      (fetchList (c4CfgObj ds) 3 "posts" (.obj [])
          { fields := .obj [("pinned", .num 1)] } []).map
        (fun r => (countFindCalls "items" r.2, r.1.length)) =
      some (1, ds.length))
    ∧ (∀ ds : List JsVal,
      (fetchList (c4CfgFn ds) 3 "posts" (.obj [])
          { fields := .obj [("rel", .num 1)] } []).map
        (fun r => (countFindCalls "items" r.2, r.1.length)) =
      some (ds.length, ds.length)) := by
  constructor
  · intro ds
    rw [c4_obj_reduce, perDocJoins_no_fn]
    rw [filter_matchesSel_empty ds, map_project_undef ds]
    simp [countFindCalls, List.length_map]
  · intro ds
    rw [c4_fn_reduce, c4_fn_perDoc]
    rw [filter_matchesSel_empty ds, map_project_undef ds]
    have hc : countFindCalls "items"
        (PCall.findC "posts" (.obj []) .undefined true none ::
          ds.map (fun d =>
            PCall.findC "items" (.obj [("parentId", getProp d "_id")])
              (.obj []) true none)) = ds.length := by
      unfold countFindCalls
      rw [← List.singleton_append, countP_append_trace]
      rw [countP_map_true ds _ _ (fun a => rfl)]
      simp [List.countP_cons]
    simp [hc, List.length_map]
